import Mathlib

/-!
Verification development for the `ship-components/react-texteditor` repository.

The repository's core (src/TextEditor.js, src/TextEditor.jsx) is an editing
session controller over the draft-js document model.  This file gives a
shallow embedding of that code: the document model is embedded at character
granularity (draft-js stores a `CharacterMetadata` per character: inline style
set plus an optional entity key), the converters and handlers are translated
function by function from the source, and the pieces of the system that live
outside `src/` (the format parsers from draft-js / draft-convert, and the
repository's `lib/convert`, `lib/convertLinks`, `lib/convertStyles` modules)
are modelled from the specification, as marked in their doc comments.
-/

namespace TextEditor

/-- One character of a block together with its inline styles and optional
entity key, mirroring draft-js `CharacterMetadata`.  A `StyledRun` of the
data model is a maximal run of consecutive characters with equal styles and
entity. -/
structure CharMeta where
  ch : Char
  styles : List String
  entity : Option Nat
deriving DecidableEq, Repr

/-- A paragraph-level unit: stable key, block type tag, and its characters. -/
structure Block where
  key : String
  blockType : String
  chars : List CharMeta
deriving DecidableEq, Repr

/-- An entity-table record: `{ type, mutability, data: { href, created } }`. -/
structure EntityRecord where
  etype : String
  mutability : String
  href : String
  created : String
deriving DecidableEq, Repr

/-- The document model (draft-js `ContentState`): ordered blocks plus the
entity table, an association list from stable entity keys to records. -/
structure ContentState where
  blocks : List Block
  entityMap : List (Nat × EntityRecord)
deriving DecidableEq, Repr

/-- A selection inside a single block: start/end offsets (normalized so that
`startOff ≤ endOff`) plus the focus flag used by the controller. -/
structure SelectionState where
  blockIdx : Nat
  startOff : Nat
  endOff : Nat
  hasFocus : Bool
deriving DecidableEq, Repr

/-- A selection is collapsed when its two offsets coincide. -/
def SelectionState.isCollapsed (s : SelectionState) : Bool :=
  s.startOff == s.endOff

/-- draft-js `EditorState`, restricted to the parts the controller reads:
current content and current selection. -/
structure EditorState where
  content : ContentState
  selection : SelectionState
deriving DecidableEq, Repr

/-- An inline style range of the raw (JSON) interchange format. -/
structure RawStyleRange where
  offset : Nat
  length : Nat
  style : String
deriving DecidableEq, Repr

/-- An entity range of the raw (JSON) interchange format. -/
structure RawEntityRange where
  offset : Nat
  length : Nat
  key : Nat
deriving DecidableEq, Repr

/-- A block of the raw (JSON) interchange format. -/
structure RawBlock where
  key : String
  btype : String
  text : String
  styleRanges : List RawStyleRange
  entityRanges : List RawEntityRange
deriving DecidableEq, Repr

/-- The raw (JSON) interchange format:
`{ blocks: [...], entityMap: {...} }`. -/
structure RawContent where
  blocks : List RawBlock
  entityMap : List (Nat × EntityRecord)
deriving DecidableEq, Repr

/-- A JavaScript value handed to the component as `props.value`, or returned
by `convertContentFrom`.  The constructors cover the shapes the dispatcher
distinguishes: the falsy values (`null`, `undefined`, the empty string —
nonempty strings are truthy), strings, raw JSON trees, and already-built
document contents (the structured / `Immutable` format). -/
inductive Value where
  | vNull
  | vUndefined
  | vStr (s : String)
  | vRaw (r : RawContent)
  | vContent (c : ContentState)
deriving DecidableEq, Repr

/-- A serialized value produced by `convertContentTo`: a raw JSON tree, a
string (html or text), or the structured content passed through unchanged. -/
inductive SerValue where
  | raw (r : RawContent)
  | str (s : String)
  | content (c : ContentState)
deriving DecidableEq, Repr

/-- JavaScript truthiness of a `Value` (`!props.value` in the source):
`null`, `undefined` and the empty string are falsy. -/
def truthy : Value → Bool
  | .vNull => false
  | .vUndefined => false
  | .vStr s => !(s == "")
  | .vRaw _ => true
  | .vContent _ => true

/-- The single empty unstyled paragraph. -/
def emptyBlock : Block :=
  { key := "", blockType := "unstyled", chars := [] }

/-- `ContentState.createFromText('')`: one empty unstyled block, no
entities. -/
def emptyContent : ContentState :=
  { blocks := [emptyBlock], entityMap := [] }

/-- Apply `f` to the characters whose absolute index lies in `[s, e)`;
`i` is the absolute index of the head of the list being traversed. -/
def mapIdxRange (f : CharMeta → CharMeta) (s e : Nat) : Nat → List CharMeta → List CharMeta
  | _, [] => []
  | i, c :: t =>
    (if s ≤ i ∧ i < e then f c else c) :: mapIdxRange f s e (i + 1) t

/-- The characters of a raw block's text, with no styles and no entity. -/
def baseChars (text : String) : List CharMeta :=
  text.data.map (fun c => { ch := c, styles := [], entity := none })

/-- Apply one raw inline style range to a character list.  Offsets beyond the
text are harmless: the range simply covers fewer characters. -/
def addStyleRange (sr : RawStyleRange) (cs : List CharMeta) : List CharMeta :=
  mapIdxRange (fun c => { c with styles := c.styles ++ [sr.style] })
    sr.offset (sr.offset + sr.length) 0 cs

/-- Apply one raw entity range to a character list.  Modelled from the spec:
a range whose key is missing from the entity map is dropped (malformed input
degrades to the closest valid document rather than raising). -/
def addEntityRange (em : List (Nat × EntityRecord)) (er : RawEntityRange)
    (cs : List CharMeta) : List CharMeta :=
  if (em.lookup er.key).isSome then
    mapIdxRange (fun c => { c with entity := some er.key })
      er.offset (er.offset + er.length) 0 cs
  else cs

/-- Decode one raw block: the text supplies the characters, then the style
ranges and entity ranges are applied. -/
def decodeBlock (em : List (Nat × EntityRecord)) (rb : RawBlock) : Block :=
  { key := rb.key
    blockType := rb.btype
    chars := rb.entityRanges.foldl (fun cs er => addEntityRange em er cs)
      (rb.styleRanges.foldl (fun cs sr => addStyleRange sr cs) (baseChars rb.text)) }

/-- Modelled from the spec: draft-js `convertFromRaw` is not under `src/`.
Per the spec's error policy, malformed JSON input never throws: a value that
is not a well-shaped raw tree, or a raw tree with no blocks, degrades to the
single empty paragraph; out-of-range style/entity ranges and dangling entity
keys are dropped. -/
def convertFromRaw (v : Value) : ContentState :=
  match v with
  | .vRaw r =>
    { blocks := if r.blocks.isEmpty then [emptyBlock]
                else r.blocks.map (decodeBlock r.entityMap)
      entityMap := r.entityMap }
  | _ => emptyContent

/-- Scan the characters of a tag: everything up to the closing angle bracket,
paired with the rest of the input after that bracket.  An unterminated tag
consumes the rest of the input (the regex alternative of matching at end of
string). -/
def scanTag : List Char → List Char × List Char
  | [] => ([], [])
  | c :: t =>
    if c = '>' then ([], t)
    else
      let p := scanTag t
      (c :: p.1, p.2)

theorem scanTag_snd_length_le : ∀ l : List Char, (scanTag l).2.length ≤ l.length := by
  intro l
  induction l with
  | nil => simp [scanTag]
  | cons c t ih =>
    simp only [scanTag]
    split
    · simp
    · simpa using Nat.le_succ_of_le ih

/-- One token of the HTML subset: a text character, an opening tag (with the
`href` attribute value, relevant for anchors), or a closing tag. -/
inductive HToken where
  | text (c : Char)
  | openTag (name : String) (href : String)
  | closeTag (name : String)
deriving DecidableEq, Repr

/-- Extract the value of an `href="..."` attribute from tag characters. -/
def extractHref : List Char → String
  | 'h' :: 'r' :: 'e' :: 'f' :: '=' :: '"' :: rest =>
    String.mk (rest.takeWhile (fun c => c != '"'))
  | _ :: t => extractHref t
  | [] => ""

/-- Modelled from the spec: tokenizer of the constrained HTML subset the
converters support.  Tags are whatever stands between angle brackets; a tag
beginning with a slash closes, anything else opens (carrying its `href`
attribute if present); degenerate empty tags are dropped. -/
def tokenizeHTML : List Char → List HToken
  | [] => []
  | '<' :: t =>
    let p := scanTag t
    (match p.1 with
     | [] => []
     | '/' :: nm => [HToken.closeTag (String.mk (nm.takeWhile (fun c => c != ' ')))]
     | body => [HToken.openTag
         (String.mk (body.takeWhile (fun c => c != ' ' && c != '/')))
         (extractHref body)]) ++ tokenizeHTML p.2
  | c :: t => HToken.text c :: tokenizeHTML t
termination_by l => l.length
decreasing_by
  · exact Nat.lt_succ_of_le (scanTag_snd_length_le t)
  · simp

/-- The inline style denoted by an HTML tag name, if any. -/
def inlineStyleOf (name : String) : Option String :=
  if name = "b" ∨ name = "strong" then some "BOLD"
  else if name = "i" ∨ name = "em" then some "ITALIC"
  else if name = "u" then some "UNDERLINE"
  else if name = "s" ∨ name = "del" ∨ name = "strike" then some "STRIKETHROUGH"
  else if name = "code" then some "CODE"
  else none

/-- The block type denoted by an HTML tag name, if any. -/
def blockTypeOf (name : String) : Option String :=
  if name = "p" ∨ name = "div" then some "unstyled"
  else if name = "h1" then some "header-one"
  else if name = "h2" then some "header-two"
  else if name = "h3" then some "header-three"
  else if name = "h4" then some "header-four"
  else if name = "h5" then some "header-five"
  else if name = "h6" then some "header-six"
  else if name = "blockquote" then some "blockquote"
  else if name = "pre" then some "code-block"
  else if name = "li" then some "unordered-list-item"
  else none

/-- Parser state for the HTML-to-document conversion: finished blocks, the
block being accumulated (type and characters), the stack-free set of open
inline styles, the currently open link entity, the entity records created so
far, and the next fresh entity key. -/
structure ParseSt where
  done : List Block
  curType : String
  cur : List CharMeta
  styles : List String
  entity : Option Nat
  entities : List (Nat × EntityRecord)
  nextKey : Nat
deriving Repr

/-- Close the block being accumulated and start a fresh unstyled one. -/
def flushBlock (st : ParseSt) : ParseSt :=
  { st with
    done := st.done ++ [{ key := "", blockType := st.curType, chars := st.cur }]
    cur := []
    curType := "unstyled" }

/-- Modelled from the spec: one step of the HTML parser.  Text characters
carry the open styles and link entity; supported inline tags toggle styles;
anchors create a `LINK` entity record; block tags delimit blocks; unsupported
tags are dropped with their text content preserved. -/
def hstep (st : ParseSt) (tok : HToken) : ParseSt :=
  match tok with
  | .text c =>
    { st with cur := st.cur ++ [{ ch := c, styles := st.styles, entity := st.entity }] }
  | .openTag name href =>
    match inlineStyleOf name with
    | some sty => { st with styles := st.styles ++ [sty] }
    | none =>
      if name = "a" then
        { st with
          entity := some st.nextKey
          entities := st.entities ++
            [(st.nextKey,
              { etype := "LINK", mutability := "MUTABLE", href := href, created := "existing" })]
          nextKey := st.nextKey + 1 }
      else
        match blockTypeOf name with
        | some bt =>
          let st' := if st.cur.isEmpty then st else flushBlock st
          { st' with curType := bt }
        | none => if name = "br" then flushBlock st else st
  | .closeTag name =>
    match inlineStyleOf name with
    | some sty => { st with styles := st.styles.erase sty }
    | none =>
      if name = "a" then { st with entity := none }
      else
        match blockTypeOf name with
        | some _ => flushBlock st
        | none => st

/-- The initial HTML parser state. -/
def parseSt0 : ParseSt :=
  { done := [], curType := "unstyled", cur := [], styles := [], entity := none
    entities := [], nextKey := 0 }

/-- Modelled from the spec: HTML-to-document conversion over the constrained
subset (the repository delegates it to `draft-convert` / `convertFromHTML`,
which is not under `src/`).  An input yielding no blocks degrades to the
single empty paragraph. -/
def convertFromHTMLStr (s : String) : ContentState :=
  let stF := (tokenizeHTML s.data).foldl hstep parseSt0
  let blocks := stF.done ++
    (if stF.cur.isEmpty then []
     else [{ key := "", blockType := stF.curType, chars := stF.cur }])
  { blocks := if blocks.isEmpty then [emptyBlock] else blocks
    entityMap := stF.entities }

/-- Modelled from the spec: the HTML parser entry point never throws; a
truthy non-string value (which the underlying DOM parser could not process)
degrades to the single empty paragraph. -/
def convertFromHTML (v : Value) : ContentState :=
  match v with
  | .vStr s => convertFromHTMLStr s
  | _ => emptyContent

/-- `convertContentFrom` (src/TextEditor.js lines 109-119, TextEditor.jsx
lines 81-91): the from-external dispatcher.  A falsy value short-circuits to
`ContentState.createFromText('')`; `json` and `html` go through their
parsers; every other type returns the value itself unchanged. -/
def convertContentFrom (value : Value) (ptype : String) : Value :=
  if truthy value = false then .vContent emptyContent
  else if ptype = "json" then .vContent (convertFromRaw value)
  else if ptype = "html" then .vContent (convertFromHTML value)
  else value

/-- Encode a character list back into per-character raw style and entity
ranges.  Modelled from the spec's interchange format; draft-js merges
adjacent ranges of one style, which is equivalent under decoding. -/
def encodeRanges : Nat → List CharMeta → List RawStyleRange × List RawEntityRange
  | _, [] => ([], [])
  | i, c :: t =>
    let p := encodeRanges (i + 1) t
    (c.styles.map (fun sty => { offset := i, length := 1, style := sty }) ++ p.1,
     (match c.entity with
      | some k => [({ offset := i, length := 1, key := k } : RawEntityRange)]
      | none => []) ++ p.2)

/-- Encode one block into the raw interchange format. -/
def encodeBlock (b : Block) : RawBlock :=
  { key := b.key
    btype := b.blockType
    text := String.mk (b.chars.map (fun c => c.ch))
    styleRanges := (encodeRanges 0 b.chars).1
    entityRanges := (encodeRanges 0 b.chars).2 }

/-- Modelled from the spec: draft-js `convertToRaw` (not under `src/`),
the canonical lossless serialization. -/
def convertToRaw (c : ContentState) : RawContent :=
  { blocks := c.blocks.map encodeBlock, entityMap := c.entityMap }

/-- A maximal run of same-styled, same-entity text, for HTML serialization. -/
structure StyleRun where
  styles : List String
  entity : Option Nat
  text : String
deriving DecidableEq, Repr

/-- Group consecutive characters with equal style set and entity key into
runs. -/
def groupRuns : List CharMeta → List StyleRun
  | [] => []
  | c :: t =>
    match groupRuns t with
    | [] => [{ styles := c.styles, entity := c.entity, text := String.mk [c.ch] }]
    | r :: rest =>
      if c.styles = r.styles ∧ c.entity = r.entity then
        { r with text := String.mk [c.ch] ++ r.text } :: rest
      else
        { styles := c.styles, entity := c.entity, text := String.mk [c.ch] } :: r :: rest

/-- The fixed, deterministic inline tag nesting order of the HTML
serializer: bold > italic > underline > strike > code, link innermost. -/
def styleTagOrder : List (String × String) :=
  [("BOLD", "b"), ("ITALIC", "i"), ("UNDERLINE", "u"), ("STRIKETHROUGH", "s"), ("CODE", "code")]

/-- The `href` of an entity key, empty when the key is unknown. -/
def hrefOfKey (em : List (Nat × EntityRecord)) (k : Nat) : String :=
  match em.lookup k with
  | some r => r.href
  | none => ""

/-- Serialize one run: open inline tags in the fixed order, the anchor tag
innermost, then the text, then the closing tags in reverse order. -/
def runToHTML (em : List (Nat × EntityRecord)) (r : StyleRun) : String :=
  let opens := styleTagOrder.foldl
    (fun acc p => if r.styles.contains p.1 then acc ++ "<" ++ p.2 ++ ">" else acc) ""
  let closes := styleTagOrder.reverse.foldl
    (fun acc p => if r.styles.contains p.1 then acc ++ "</" ++ p.2 ++ ">" else acc) ""
  let inner := match r.entity with
    | some k => "<a href=\"" ++ hrefOfKey em k ++ "\">" ++ r.text ++ "</a>"
    | none => r.text
  opens ++ inner ++ closes

/-- The HTML tag for a block type. -/
def blockTagOf (bt : String) : String :=
  if bt = "header-one" then "h1"
  else if bt = "header-two" then "h2"
  else if bt = "header-three" then "h3"
  else if bt = "header-four" then "h4"
  else if bt = "header-five" then "h5"
  else if bt = "header-six" then "h6"
  else if bt = "blockquote" then "blockquote"
  else if bt = "code-block" then "pre"
  else if bt = "unordered-list-item" ∨ bt = "ordered-list-item" then "li"
  else "p"

/-- Serialize one block to HTML. -/
def blockToHTML (em : List (Nat × EntityRecord)) (b : Block) : String :=
  let tag := blockTagOf b.blockType
  "<" ++ tag ++ ">" ++
    (groupRuns b.chars).foldl (fun acc r => acc ++ runToHTML em r) "" ++
    "</" ++ tag ++ ">"

/-- Modelled from the spec: `draft-convert`'s `convertToHTML` (not under
`src/`): serialize each block by its type with deterministically nested
inline tags. -/
def convertToHTML (c : ContentState) : String :=
  c.blocks.foldl (fun acc b => acc ++ blockToHTML c.entityMap b) ""

/-- Consume tag characters up to and including the closing angle bracket
(`[^>]*(>|$)` after at least one consumed character), returning the rest. -/
def tagRest : List Char → List Char
  | [] => []
  | c :: t => if c = '>' then t else tagRest t

/-- Match `[^>]+(>|$)`: at least one non-bracket character then the closing
bracket or the end of input; returns the rest on success. -/
def tagBody : List Char → Option (List Char)
  | [] => none
  | c :: t => if c = '>' then none else some (tagRest t)

theorem tagRest_length_le : ∀ l : List Char, (tagRest l).length ≤ l.length := by
  intro l
  induction l with
  | nil => simp [tagRest]
  | cons c t ih =>
    simp only [tagRest]
    split
    · simp
    · exact Nat.le_succ_of_le ih

theorem tagBody_length_le : ∀ l r : List Char, tagBody l = some r → r.length ≤ l.length := by
  intro l r h
  match l with
  | [] => simp [tagBody] at h
  | c :: t =>
    simp only [tagBody] at h
    split at h
    · simp at h
    · simp only [Option.some.injEq] at h
      subst h
      exact Nat.le_succ_of_le (tagRest_length_le t)

/-- Match the tag pattern after an opening angle bracket, i.e.
`\/?[^>]+(>|$)`: an optional slash then the tag body, trying the
slash-consuming reading first (as the regex engine's backtracking does). -/
def tagMatch : List Char → Option (List Char)
  | [] => none
  | c :: t =>
    if c = '/' then
      match tagBody t with
      | some r => some r
      | none => tagBody (c :: t)
    else tagBody (c :: t)

theorem tagMatch_length_le : ∀ l r : List Char, tagMatch l = some r → r.length ≤ l.length := by
  intro l r h
  match l with
  | [] => simp [tagMatch] at h
  | c :: t =>
    simp only [tagMatch] at h
    split at h
    · split at h
      · next heq =>
        simp only [Option.some.injEq] at h
        subst h
        exact Nat.le_succ_of_le (tagBody_length_le t _ heq)
      · exact tagBody_length_le _ r h
    · exact tagBody_length_le _ r h

/-- The global replacement of the regex `<\/?[^>]+(>|$)` by the empty
string: tag occurrences are removed, a lone opening bracket that starts no
tag is kept, and scanning resumes after each removal. -/
def stripGo (l : List Char) : List Char :=
  match l with
  | [] => []
  | c :: t =>
    if c = '<' then
      match h : tagMatch t with
      | some r => stripGo r
      | none => c :: stripGo t
    else c :: stripGo t
termination_by l.length
decreasing_by
  · exact Nat.lt_succ_of_le (tagMatch_length_le t _ h)
  · simp
  · simp

/-- `str.replace(/<\/?[^>]+(>|$)/g, '')` from `convertHTMLToString`. -/
def stripTags (s : String) : String :=
  String.mk (stripGo s.data)

/-- `convertHTMLToString` (src/TextEditor.js lines 144-149): removes HTML
tags from strings; any non-string argument is returned unchanged by the
`typeof` guard. -/
def convertHTMLToString (v : SerValue) : SerValue :=
  match v with
  | .str s => .str (stripTags s)
  | other => other

/-- `convertContentTo` (src/TextEditor.js lines 124-136): the to-external
dispatcher over the current content.  Note that the `text` branch passes the
content value itself — not an HTML string — to `convertHTMLToString`. -/
def convertContentTo (content : ContentState) (ptype : String) : SerValue :=
  if ptype = "json" then .raw (convertToRaw content)
  else if ptype = "html" then .str (convertToHTML content)
  else if ptype = "text" then convertHTMLToString (.content content)
  else .content content

/-- Modelled from the spec: the `linkify-it` URL matcher (global, TLD-aware
configuration): a token with an explicit scheme is returned as is, a bare
domain-looking token is canonicalized with an `http` scheme, anything else is
no match.  Only the canonicalization shape matters to the controller. -/
def linkifyMatch (s : String) : Option String :=
  if s.length > 0 && (s.startsWith "http://" || s.startsWith "https://") then some s
  else if s.toList.contains '.' &&
          (s.endsWith ".com" || s.endsWith ".org" || s.endsWith ".net" || s.endsWith ".io") then
    some ("http://" ++ s)
  else none

/-- The entity key of the character at index `i`, if any. -/
def entityAt (chars : List CharMeta) (i : Nat) : Option Nat :=
  match chars.get? i with
  | some c => c.entity
  | none => none

/-- Whether a key denotes a `LINK` entity of the content's entity table. -/
def isLinkKey (c : ContentState) (k : Nat) : Bool :=
  match c.entityMap.lookup k with
  | some r => r.etype == "LINK"
  | none => false

/-- The length of the prefix of `cs` whose characters carry entity `k`. -/
def entityRunLen (k : Nat) (cs : List CharMeta) : Nat :=
  (cs.takeWhile (fun c => c.entity == some k)).length

/-- First index in `[i, i+n)` whose character carries a `LINK` entity. -/
def findLinkPosAux (c : ContentState) (chars : List CharMeta) : Nat → Nat → Option Nat
  | _, 0 => none
  | i, n + 1 =>
    match entityAt chars i with
    | some k => if isLinkKey c k then some i else findLinkPosAux c chars (i + 1) n
    | none => findLinkPosAux c chars (i + 1) n

/-- The resolved link at a selection: its entity key, the selection covering
the full link span, and the record's `href` (`currentLink.entity.getData().href`
in the source). -/
structure LinkInfo where
  key : Nat
  selection : SelectionState
  href : String
deriving DecidableEq, Repr

/-- Modelled from the spec: `getLink` from the repository's
`lib/convertLinks` (not under `src/`): resolves the link entity, if any,
covering a collapsed cursor or overlapping a non-collapsed selection, and
computes the selection of the full maximal span of that entity. -/
def getLink (st : EditorState) : Option LinkInfo :=
  let sel := st.selection
  match st.content.blocks.get? sel.blockIdx with
  | none => none
  | some b =>
    let pos? :=
      if sel.isCollapsed then
        match entityAt b.chars sel.startOff with
        | some k => if isLinkKey st.content k then some sel.startOff else none
        | none => none
      else findLinkPosAux st.content b.chars sel.startOff (sel.endOff - sel.startOff)
    match pos? with
    | none => none
    | some p =>
      match entityAt b.chars p with
      | some k =>
        some
          { key := k
            selection :=
              { blockIdx := sel.blockIdx
                startOff := p - entityRunLen k (b.chars.take p).reverse
                endOff := p + entityRunLen k (b.chars.drop p)
                hasFocus := sel.hasFocus }
            href := hrefOfKey st.content.entityMap k }
      | none => none

/-- Modelled from the spec: `RichUtils.toggleLink(editorState, selection, key)`
(draft-js, not under `src/`): set — or with `none`, remove — the entity
association of every run inside the selection; the entity table is not
touched. -/
def applyEntity (c : ContentState) (sel : SelectionState) (keyOpt : Option Nat) : ContentState :=
  match c.blocks.get? sel.blockIdx with
  | none => c
  | some b =>
    { c with
      blocks := c.blocks.set sel.blockIdx
        { b with chars := mapIdxRange (fun ch => { ch with entity := keyOpt }) sel.startOff sel.endOff 0 b.chars } }

/-- A key not yet present in an entity table. -/
def freshKey (em : List (Nat × EntityRecord)) : Nat :=
  em.foldl (fun m p => max m (p.1 + 1)) 0

/-- Modelled from the spec: `contentState.createEntity(type, mutability, data)`
(draft-js, not under `src/`): append a record under a fresh stable key.  In
draft-js the entity store is global to the content. -/
def createEntity (c : ContentState) (etype mutability href created : String) : ContentState :=
  { c with
    entityMap := c.entityMap ++
      [(freshKey c.entityMap,
        { etype := etype, mutability := mutability, href := href, created := created })] }

/-- `contentState.getLastCreatedEntityKey()`: the key appended last. -/
def getLastCreatedEntityKey (c : ContentState) : Nat :=
  match c.entityMap.getLast? with
  | some p => p.1
  | none => 0

/-- Modelled from the spec: `Modifier.insertText(content, selection, text,
styles, entityKey)` (draft-js, not under `src/`): replace the selected range
by the characters of `text`, each carrying the given styles and entity
key. -/
def insertText (c : ContentState) (sel : SelectionState) (text : String)
    (styles : List String) (keyOpt : Option Nat) : ContentState :=
  match c.blocks.get? sel.blockIdx with
  | none => c
  | some b =>
    { c with
      blocks := c.blocks.set sel.blockIdx
        { b with chars := b.chars.take sel.startOff ++
            text.data.map (fun ch => { ch := ch, styles := styles, entity := keyOpt }) ++
            b.chars.drop sel.endOff } }

/-- The three manual link actions of the toolbar. -/
inductive LinkAction where
  | ADD
  | EDIT
  | DELETE
deriving DecidableEq, Repr

/-- The resolution of the asynchronous URL prompt (`LinkModal`): the promise
resolves with the entered string on confirm, or rejects on dismissal. -/
inductive PromptOutcome where
  | confirmed (href : String)
  | cancelled
deriving DecidableEq, Repr

/-- JavaScript whitespace for `String.prototype.trim`. -/
def isJsSpace (c : Char) : Bool :=
  c == ' ' || c == '\t' || c == '\n' || c == '\r'

/-- `String.prototype.trim`: strip whitespace from both ends. -/
def jsTrim (s : String) : String :=
  String.mk (((s.data.dropWhile isJsSpace).reverse.dropWhile isJsSpace).reverse)

/-- The selection `handleLinkClick` operates on (src/TextEditor.js lines
684-687): when the selection is collapsed inside a link it is widened to the
full link span, otherwise it is left as is. -/
def effectiveSelection (st : EditorState) : SelectionState :=
  match getLink st with
  | some l => if st.selection.isCollapsed then l.selection else st.selection
  | none => st.selection

/-- `handleLinkClick` (src/TextEditor.js lines 674-752), embedded as the
revision handed to `handleEditorChange`, or `none` when no revision is
committed (non-editable session, or prompt dismissed).  `DELETE` removes the
entity association over the effective selection without consulting the
prompt.  `EDIT` (and the switch's `default`) fall through into `ADD`: both
open the prompt — they differ only in the modal's title and prefilled href —
and on confirmation a non-empty href creates a `LINK` entity (inserting the
href text at a collapsed cursor), while an empty href removes the link; on
rejection the promise's catch does nothing. -/
def handleLinkClick (editable : Bool) (st : EditorState) (linkAction : LinkAction)
    (prompt : PromptOutcome) : Option EditorState :=
  if editable = false then none
  else
    let currentLink := getLink st
    let currentContent := st.content
    let selectionState := effectiveSelection st
    match linkAction with
    | .DELETE => some { st with content := applyEntity currentContent selectionState none }
    | _ =>
      match prompt with
      | .cancelled => none
      | .confirmed enteredHref =>
        if jsTrim enteredHref ≠ "" then
          let newHref := match linkifyMatch enteredHref with
            | some url => url
            | none => enteredHref
          let contentWithEntity := createEntity currentContent "LINK" "MUTABLE" newHref "insert"
          let entityKey := getLastCreatedEntityKey contentWithEntity
          let st1 := match currentLink with
            | some _ => { st with content := applyEntity st.content selectionState none }
            | none => st
          let st2 := if selectionState.isCollapsed then
              { st1 with content := insertText contentWithEntity selectionState newHref [] (some entityKey) }
            else
              { st1 with content := contentWithEntity }
          some { st2 with content := applyEntity st2.content selectionState (some entityKey) }
        else
          some { st with content := applyEntity currentContent selectionState none }

/-- The component props the controller reads; `onChange` records whether the
host passed a change callback. -/
structure Props where
  editable : Bool
  ptype : String
  onChange : Bool
  convertLinksInline : Bool
  onlyInline : Bool
deriving DecidableEq, Repr

/-- The component's observable session state: the current editor state, the
focus flag, and the list of `onChange` payloads notified to the host so far
(in order). -/
structure Session where
  st : EditorState
  focus : Bool
  notifications : List SerValue
deriving DecidableEq, Repr

/-- The block types that the style normalizer treats as block styles. -/
def blockStyleTypes : List String :=
  ["header-one", "header-two", "header-three", "header-four", "header-five", "header-six",
   "blockquote", "code-block", "unordered-list-item", "ordered-list-item"]

/-- Modelled from the spec: `convertStyles` from the repository's
`lib/convertStyles` (not under `src/`), the style normalizer: when block
styles are not allowed, every block carrying a block style is coerced to the
default paragraph type; text, runs and entities are untouched. -/
def convertStyles (st : EditorState) (sel : SelectionState) (allowBlock : Bool) : EditorState :=
  if allowBlock then st
  else
    { st with
      content :=
        { st.content with
          blocks := st.content.blocks.map
            (fun b => if blockStyleTypes.contains b.blockType then
                { b with blockType := "unstyled" } else b) } }

/-- Modelled from the spec: the auto-linking pass over one block's
characters: each maximal space-free token that is not already covered by an
entity and that the URL matcher accepts is wrapped in a fresh `LINK` entity
with `created: "insert"`.  The fuel argument bounds the recursion by the
character count. -/
def autoLinkAux : Nat → List (Nat × EntityRecord) → List CharMeta →
    List CharMeta × List (Nat × EntityRecord)
  | 0, em, cs => (cs, em)
  | _ + 1, em, [] => ([], em)
  | fuel + 1, em, c :: t =>
    if c.ch = ' ' then
      let p := autoLinkAux fuel em t
      (c :: p.1, p.2)
    else
      let tok := (c :: t).takeWhile (fun x => x.ch != ' ')
      let rest := (c :: t).dropWhile (fun x => x.ch != ' ')
      let tokStr := String.mk (tok.map (fun x => x.ch))
      let nxt :=
        if tok.all (fun x => x.entity == none) then
          match linkifyMatch tokStr with
          | some url =>
            let k := freshKey em
            (tok.map (fun x => { x with entity := some k }),
             em ++ [(k, { etype := "LINK", mutability := "MUTABLE", href := url, created := "insert" })])
          | none => (tok, em)
        else (tok, em)
      let p := autoLinkAux fuel nxt.2 rest
      (nxt.1 ++ p.1, p.2)

/-- Modelled from the spec: `convertLinks` from the repository's
`lib/convertLinks` (not under `src/`), the auto-linking pass: spans already
entity-covered are skipped, so the pass is re-entrant. -/
def convertLinks (st : EditorState) : EditorState :=
  let folded := st.content.blocks.foldl
    (fun acc b =>
      let p := autoLinkAux b.chars.length acc.2 b.chars
      (acc.1 ++ [{ b with chars := p.1 }], p.2))
    (([], st.content.entityMap) : List Block × List (Nat × EntityRecord))
  { st with content := { blocks := folded.1, entityMap := folded.2 } }

/-- `handleEditorChange` (src/TextEditor.js lines 589-623): recompute the
focus flag from the selection, run the style normalizer and — when inline
auto-linking is enabled — the auto-link pass, store the revision, and then,
whenever the host passed a callback, notify it with the re-serialized
content.  The notification is unconditional: no comparison with the last
notified value is performed. -/
def handleEditorChange (p : Props) (s : Session) (editorState0 : EditorState) : Session :=
  let selectionState := editorState0.selection
  let focus := selectionState.hasFocus
  let editorState1 := convertStyles editorState0 selectionState (!p.onlyInline)
  let editorState2 := if p.convertLinksInline then convertLinks editorState1 else editorState1
  let s' := { s with st := editorState2, focus := focus }
  if p.onChange then
    { s' with notifications := s'.notifications ++ [convertContentTo editorState2.content p.ptype] }
  else s'

/-- The session-level link action: a committed revision is fed through
`handleEditorChange`; otherwise the session is untouched. -/
def handleLinkClickSession (p : Props) (s : Session) (a : LinkAction)
    (prompt : PromptOutcome) : Session :=
  match handleLinkClick p.editable s.st a prompt with
  | none => s
  | some st' => handleEditorChange p s st'

/-- Modelled from the spec: `RichUtils.toggleInlineStyle` (draft-js, not
under `src/`): if every selected character already carries the style it is
removed from each, otherwise it is added to each. -/
def toggleInlineStyle (st : EditorState) (sty : String) : EditorState :=
  match st.content.blocks.get? st.selection.blockIdx with
  | none => st
  | some b =>
    let sel := st.selection
    let covered := (b.chars.drop sel.startOff).take (sel.endOff - sel.startOff)
    let allHave := covered.all (fun c => c.styles.contains sty)
    let f : CharMeta → CharMeta := fun c =>
      if allHave then { c with styles := c.styles.erase sty }
      else if c.styles.contains sty then c else { c with styles := c.styles ++ [sty] }
    { st with
      content :=
        { st.content with
          blocks := st.content.blocks.set sel.blockIdx
            { b with chars := mapIdxRange f sel.startOff sel.endOff 0 b.chars } } }

/-- Modelled from the spec: `RichUtils.toggleBlockType` (draft-js, not under
`src/`): the selected block's type is toggled to the given type, or back to
the default paragraph type when it already carries it. -/
def toggleBlockType (st : EditorState) (bt : String) : EditorState :=
  match st.content.blocks.get? st.selection.blockIdx with
  | none => st
  | some b =>
    { st with
      content :=
        { st.content with
          blocks := st.content.blocks.set st.selection.blockIdx
            { b with blockType := if b.blockType = bt then "unstyled" else bt } } }

/-- `handleInlineStyleClick` (src/TextEditor.js lines 644-654, TextEditor.jsx
lines 158-170): a no-op when the session is non-editable, otherwise the
toggled revision is fed through the change pipeline. -/
def handleInlineStyleClick (p : Props) (s : Session) (inlineStyle : String) : Session :=
  if p.editable = false then s
  else handleEditorChange p s (toggleInlineStyle s.st inlineStyle)

/-- `handleBlockStyleClick` (src/TextEditor.js lines 659-669, TextEditor.jsx
lines 175-187): a no-op when the session is non-editable, otherwise the
toggled revision is fed through the change pipeline. -/
def handleBlockStyleClick (p : Props) (s : Session) (blockStyle : String) : Session :=
  if p.editable = false then s
  else handleEditorChange p s (toggleBlockType s.st blockStyle)

/-- Modelled from the spec: `Modifier.splitBlock` (draft-js, not under
`src/`): split the selected block at the selection, removing the selected
range; the two halves keep the block's type. -/
def splitBlock (c : ContentState) (sel : SelectionState) : ContentState :=
  match c.blocks.get? sel.blockIdx with
  | none => c
  | some b =>
    { c with
      blocks := c.blocks.take sel.blockIdx ++
        [{ b with chars := b.chars.take sel.startOff },
         { key := b.key ++ "+", blockType := b.blockType, chars := b.chars.drop sel.endOff }] ++
        c.blocks.drop (sel.blockIdx + 1) }

/-- The two values `handleKeyCommand` may return. -/
inductive HandleResult where
  | handled
  | notHandled
deriving DecidableEq, Repr

/-- `handleKeyCommand` (src/TextEditor.js lines 560-583 and 154-177): the
`rich` argument stands for the result of the host engine's default handler,
`RichUtils.handleKeyCommand`, computed first in the source.  The pair holds
the returned string and the revision handed to `handleEditorChange` (or
`none` when nothing is committed). -/
def handleKeyCommand (ptype : String) (st : EditorState) (command : String)
    (rich : Option EditorState) : HandleResult × Option EditorState :=
  let newEditorStatue := rich
  if command = "split-block" ∧ ptype = "html" then
    (.handled, some { st with content := splitBlock st.content st.selection })
  else
    match newEditorStatue with
    | some s => (.handled, some s)
    | none => (.notHandled, none)

/-- Whether a serialized value still carries inline style information. -/
def hasStyleInfo : SerValue → Bool
  | .content c => c.blocks.any (fun b => b.chars.any (fun ch => !ch.styles.isEmpty))
  | .raw r => r.blocks.any (fun b => !b.styleRanges.isEmpty)
  | .str _ => false

/-- An entity reference is in order when the entity table resolves it. -/
def entOkIn (em : List (Nat × EntityRecord)) (o : Option Nat) : Prop :=
  ∀ k, o = some k → (em.lookup k).isSome = true

/-- Spec invariant (2): every entity key referenced by a character exists in
the entity table. -/
def entClosed (c : ContentState) : Prop :=
  ∀ b, b ∈ c.blocks → ∀ ch, ch ∈ b.chars → entOkIn c.entityMap ch.entity

/-- A valid document: at least one block (worst case the single empty
paragraph) and all entity references resolvable. -/
def validDoc (c : ContentState) : Prop :=
  c.blocks ≠ [] ∧ entClosed c

/-- The HTML parser's invariant: every entity key referenced from a finished
block, from the block being accumulated, or as the open link, resolves in the
entity records created so far. -/
def psInv (st : ParseSt) : Prop :=
  (∀ b ∈ st.done, ∀ ch ∈ b.chars, entOkIn st.entities ch.entity) ∧
  (∀ ch ∈ st.cur, entOkIn st.entities ch.entity) ∧
  entOkIn st.entities st.entity

/-- A two-character demo document whose first character is bold. -/
def demoChars : List CharMeta :=
  [{ ch := 'H', styles := ["BOLD"], entity := none },
   { ch := 'i', styles := [], entity := none }]

/-- A demo document with one unstyled block containing styled text. -/
def demoContent : ContentState :=
  { blocks := [{ key := "k1", blockType := "unstyled", chars := demoChars }], entityMap := [] }

/-- A collapsed, focused selection at the head of the demo document. -/
def demoSelection : SelectionState :=
  { blockIdx := 0, startOff := 0, endOff := 0, hasFocus := true }

/-- The demo editor state. -/
def demoEditorState : EditorState :=
  { content := demoContent, selection := demoSelection }

/-- Props of a host using the structured format with a change callback and
auto-linking disabled. -/
def demoProps : Props :=
  { editable := true, ptype := "Immutable", onChange := true
    convertLinksInline := false, onlyInline := false }

/-- A fresh session over the demo editor state, no notifications yet. -/
def demoSession : Session :=
  { st := demoEditorState, focus := false, notifications := [] }

/-- The demo link entity record. -/
def linkRec : EntityRecord :=
  { etype := "LINK", mutability := "MUTABLE", href := "http://x.com", created := "insert" }

/-- Characters `ab c` where `ab` is covered by link entity 0. -/
def linkedChars : List CharMeta :=
  [{ ch := 'a', styles := [], entity := some 0 },
   { ch := 'b', styles := [], entity := some 0 },
   { ch := ' ', styles := [], entity := none },
   { ch := 'c', styles := [], entity := none }]

/-- A demo document holding one link spanning its first two characters. -/
def linkedContent : ContentState :=
  { blocks := [{ key := "kb", blockType := "unstyled", chars := linkedChars }]
    entityMap := [(0, linkRec)] }

/-- A demo editor state whose collapsed cursor sits inside the link span. -/
def linkedEditorState : EditorState :=
  { content := linkedContent
    selection := { blockIdx := 0, startOff := 1, endOff := 1, hasFocus := true } }

/-- C1: the spec claims the host `onChange` callback fires exactly once per
materially-changed revision, never twice with identical serialized content.
The code contradicts its own comment (`limit change events to only times it
changed`): `handleEditorChange` notifies unconditionally, so feeding the same
revision through the pipeline twice — as happens for a selection-only change —
emits two successive notifications carrying identical serialized content. -/
theorem c1_duplicate_notifications :
    (handleEditorChange demoProps (handleEditorChange demoProps demoSession demoEditorState)
        demoEditorState).notifications
      = [SerValue.content demoContent, SerValue.content demoContent] := by
  decide

/-- C6: the spec claims the `text` serialization returns the blocks' text
with all tags and styles stripped.  The code's `text` branch hands the
`ContentState` object itself — not a string — to `convertHTMLToString`,
whose `typeof` guard returns any non-string unchanged, so the structured
content (style information included) comes back instead of plain text. -/
theorem c6_text_conversion_returns_content :
    convertContentTo demoContent "text" = SerValue.content demoContent
      ∧ hasStyleInfo (convertContentTo demoContent "text") = true := by
  decide

/-- C9: for every type outside `json`, `html` and `text` (the structured
format), `convertContentFrom` returns a truthy value itself unchanged, and
`convertContentTo` returns the current document content unchanged, so the
structured-format round-trip is the identity. -/
theorem c9_structured_passthrough :
    ∀ (v : Value) (c : ContentState) (t : String),
      t ≠ "json" → t ≠ "html" → t ≠ "text" → truthy v = true →
      convertContentFrom v t = v ∧ convertContentTo c t = SerValue.content c := by
  intro v c t h1 h2 h3 hv
  constructor
  · simp [convertContentFrom, hv, h1, h2]
  · simp [convertContentTo, h1, h2, h3]

/-- C9 witness: the round-trip evaluated on the demo document under the
`Immutable` type. -/
theorem c9_structured_passthrough_witness :
    convertContentFrom (Value.vContent demoContent) "Immutable" = Value.vContent demoContent
      ∧ convertContentTo demoContent "Immutable" = SerValue.content demoContent :=
  c9_structured_passthrough (Value.vContent demoContent) demoContent "Immutable"
    (by decide) (by decide) (by decide) (by decide)

/-- C10: every falsy value — `null`, `undefined`, the empty string — makes
`convertContentFrom` return the single empty unstyled paragraph for every
configured type, including `json` and `html`, bypassing the parsers. -/
theorem c10_falsy_empty_paragraph :
    ∀ (v : Value) (t : String), truthy v = false →
      convertContentFrom v t = Value.vContent emptyContent := by
  intro v t hv
  simp [convertContentFrom, hv]

/-- C10 witness: the empty string under the `json` type. -/
theorem c10_falsy_empty_paragraph_witness :
    convertContentFrom (Value.vStr "") "json" = Value.vContent emptyContent :=
  c10_falsy_empty_paragraph (Value.vStr "") "json" (by decide)

/-- C7: `handleKeyCommand` always answers `handled` or `not-handled`; the
`split-block` command is intercepted — block split applied through the
low-level split primitive — exactly when the serialization type is `html`;
otherwise the answer is `handled` precisely when the host engine's default
key-command handler produced a new state. -/
theorem c7_handleKeyCommand_spec :
    ∀ (pt : String) (st : EditorState) (cmd : String) (rich : Option EditorState),
      ((handleKeyCommand pt st cmd rich).1 = HandleResult.handled ∨
        (handleKeyCommand pt st cmd rich).1 = HandleResult.notHandled)
      ∧ (cmd = "split-block" → pt = "html" →
          handleKeyCommand pt st cmd rich =
            (HandleResult.handled, some { st with content := splitBlock st.content st.selection }))
      ∧ (¬(cmd = "split-block" ∧ pt = "html") →
          (rich = none → handleKeyCommand pt st cmd rich = (HandleResult.notHandled, none))
          ∧ ∀ s, rich = some s → handleKeyCommand pt st cmd rich = (HandleResult.handled, some s)) := by
  intro pt st cmd rich
  by_cases h : cmd = "split-block" ∧ pt = "html"
  · refine ⟨?_, ?_, ?_⟩
    · simp [handleKeyCommand, h]
    · intro _ _
      simp [handleKeyCommand, h]
    · intro hn
      exact absurd h hn
  · refine ⟨?_, ?_, ?_⟩
    · cases rich <;> simp [handleKeyCommand, h]
    · intro h1 h2
      exact absurd ⟨h1, h2⟩ h
    · intro _
      constructor
      · intro hr
        subst hr
        simp [handleKeyCommand, h]
      · intro s hr
        subst hr
        simp [handleKeyCommand, h]

/-- C7 witness: `split-block` in `html` mode is intercepted; an ordinary
command in `json` mode with no default-handler state is `not-handled`. -/
theorem c7_handleKeyCommand_witness :
    handleKeyCommand "html" demoEditorState "split-block" none =
      (HandleResult.handled,
        some { demoEditorState with
                 content := splitBlock demoEditorState.content demoEditorState.selection })
      ∧ handleKeyCommand "json" demoEditorState "bold" none = (HandleResult.notHandled, none) := by
  constructor
  · exact (c7_handleKeyCommand_spec "html" demoEditorState "split-block" none).2.1 rfl rfl
  · exact ((c7_handleKeyCommand_spec "json" demoEditorState "bold" none).2.2 (by decide)).1 rfl

/-- C8: with `editable=false` the inline-style and block-type toggles leave
the whole session state — revision, selection, focus, notification history —
unchanged and notify nothing; with `editable=true` each produces a new
revision through the host engine's toggle primitive and feeds it through the
change pipeline. -/
theorem c8_toggles_editable_guard :
    ∀ (p : Props) (s : Session) (sty bt : String),
      (p.editable = false →
        handleInlineStyleClick p s sty = s ∧ handleBlockStyleClick p s bt = s)
      ∧ (p.editable = true →
        handleInlineStyleClick p s sty = handleEditorChange p s (toggleInlineStyle s.st sty)
        ∧ handleBlockStyleClick p s bt = handleEditorChange p s (toggleBlockType s.st bt)) := by
  intro p s sty bt
  constructor
  · intro h
    constructor <;> simp [handleInlineStyleClick, handleBlockStyleClick, h]
  · intro h
    constructor <;> simp [handleInlineStyleClick, handleBlockStyleClick, h]

/-- C8 witness: the toggles evaluated on a non-editable and an editable
session over the demo state. -/
theorem c8_toggles_editable_guard_witness :
    handleInlineStyleClick { demoProps with editable := false } demoSession "BOLD" = demoSession
      ∧ handleBlockStyleClick { demoProps with editable := false } demoSession "header-one" = demoSession
      ∧ handleInlineStyleClick demoProps demoSession "BOLD"
          = handleEditorChange demoProps demoSession (toggleInlineStyle demoSession.st "BOLD") := by
  refine ⟨?_, ?_, ?_⟩
  · exact ((c8_toggles_editable_guard { demoProps with editable := false } demoSession "BOLD"
      "header-one").1 rfl).1
  · exact ((c8_toggles_editable_guard { demoProps with editable := false } demoSession "BOLD"
      "header-one").1 rfl).2
  · exact ((c8_toggles_editable_guard demoProps demoSession "BOLD" "header-one").2 rfl).1

/-- C5: dismissing the URL prompt of an `ADD` or `EDIT` link action leaves
the session completely unchanged: no entity is created, no run association is
altered, no text is inserted and no notification is emitted — the promise's
rejection handler does nothing, and nothing was mutated before the prompt. -/
theorem c5_prompt_cancel_noop :
    ∀ (p : Props) (s : Session) (a : LinkAction),
      (a = LinkAction.ADD ∨ a = LinkAction.EDIT) →
      handleLinkClickSession p s a PromptOutcome.cancelled = s := by
  intro p s a ha
  have h : handleLinkClick p.editable s.st a PromptOutcome.cancelled = none := by
    rcases ha with h | h <;> subst h <;> by_cases he : p.editable = false <;>
      simp [handleLinkClick, he]
  simp [handleLinkClickSession, h]

/-- C5 witness: cancelling an `ADD` prompt on the demo link session. -/
theorem c5_prompt_cancel_noop_witness :
    handleLinkClickSession demoProps
        { st := linkedEditorState, focus := false, notifications := [] }
        LinkAction.ADD PromptOutcome.cancelled
      = { st := linkedEditorState, focus := false, notifications := [] } :=
  c5_prompt_cancel_noop demoProps
    { st := linkedEditorState, focus := false, notifications := [] }
    LinkAction.ADD (Or.inl rfl)

/-- C4: a confirmed `ADD` or `EDIT` prompt whose href is empty (or only
whitespace) removes the link entity association over the effective selection
— the action degrades to `DELETE` — whereas prompt cancellation commits
nothing: a confirmed empty string deletes the link, cancellation changes
nothing. -/
theorem c4_confirmed_empty_href_deletes :
    ∀ (st : EditorState) (a : LinkAction) (href : String),
      (a = LinkAction.ADD ∨ a = LinkAction.EDIT) → jsTrim href = "" →
      handleLinkClick true st a (PromptOutcome.confirmed href) =
        some { st with content := applyEntity st.content (effectiveSelection st) none }
      ∧ handleLinkClick true st a PromptOutcome.cancelled = none := by
  intro st a href ha ht
  rcases ha with h | h <;> subst h <;> constructor <;> simp [handleLinkClick, ht]

/-- C4 witness: a whitespace-only confirmed href on the demo link state,
against cancellation on the same state. -/
theorem c4_confirmed_empty_href_deletes_witness :
    handleLinkClick true linkedEditorState LinkAction.ADD (PromptOutcome.confirmed "  ") =
      some { linkedEditorState with
               content := applyEntity linkedEditorState.content
                 (effectiveSelection linkedEditorState) none }
      ∧ handleLinkClick true linkedEditorState LinkAction.ADD PromptOutcome.cancelled = none :=
  c4_confirmed_empty_href_deletes linkedEditorState LinkAction.ADD "  " (Or.inl rfl) (by decide)

theorem get?_set_self {α : Type} : ∀ (l : List α) (i : Nat) (a : α), i < l.length →
    (l.set i a).get? i = some a := by
  intro l
  induction l with
  | nil =>
    intro i a h
    simp at h
  | cons c t ih =>
    intro i a h
    cases i with
    | zero => simp
    | succ j =>
      simp only [List.set, List.get?]
      exact ih j a (by simpa using h)

theorem mapIdxRange_getElem? (f : CharMeta → CharMeta) (s e : Nat) :
    ∀ (cs : List CharMeta) (i j : Nat),
      (mapIdxRange f s e i cs)[j]? =
        cs[j]?.map (fun c => if s ≤ i + j ∧ i + j < e then f c else c) := by
  intro cs
  induction cs with
  | nil =>
    intro i j
    simp [mapIdxRange]
  | cons c t ih =>
    intro i j
    cases j with
    | zero => simp [mapIdxRange]
    | succ m =>
      simp only [mapIdxRange, List.getElem?_cons_succ]
      rw [ih (i + 1) m]
      have hx : i + 1 + m = i + (m + 1) := by omega
      rw [hx]

theorem takeWhile_length_ge {α : Type} (q : α → Bool) :
    ∀ (l : List α) (n : Nat),
      (∀ i, i < n → ∃ a, l.get? i = some a ∧ q a = true) →
      n ≤ (l.takeWhile q).length := by
  intro l
  induction l with
  | nil =>
    intro n h
    cases n with
    | zero => simp
    | succ m =>
      rcases h 0 (by omega) with ⟨a, ha, _⟩
      simp at ha
  | cons c t ih =>
    intro n h
    cases n with
    | zero => simp
    | succ m =>
      rcases h 0 (by omega) with ⟨a, ha, hq⟩
      have hqc : q c = true := by
        have hca : c = a := by simpa using ha
        rw [hca]
        exact hq
      have h' : ∀ i, i < m → ∃ a, t.get? i = some a ∧ q a = true := by
        intro i hi
        rcases h (i + 1) (by omega) with ⟨b, hb, hqb⟩
        exact ⟨b, by simpa using hb, hqb⟩
      rw [List.takeWhile_cons, if_pos hqc]
      exact Nat.succ_le_succ (ih m h')

/-- C3: applying the `DELETE` link action with a collapsed cursor anywhere
inside a link's span removes the entity association from every character of
the entire span — `handleLinkClick` widens the collapsed selection to the
full link before removing — while the entity's record remains, orphaned, in
the entity table. -/
theorem c3_delete_clears_entire_link_span :
    ∀ (st : EditorState) (blk : Block) (k : Nat) (rec : EntityRecord) (s0 e0 : Nat)
      (pr : PromptOutcome),
      st.content.blocks.get? st.selection.blockIdx = some blk →
      st.selection.isCollapsed = true →
      s0 ≤ st.selection.startOff → st.selection.startOff < e0 → e0 ≤ blk.chars.length →
      (∀ i, s0 ≤ i → i < e0 → entityAt blk.chars i = some k) →
      st.content.entityMap.lookup k = some rec → rec.etype = "LINK" →
      ∃ st', handleLinkClick true st LinkAction.DELETE pr = some st'
        ∧ st'.content.entityMap = st.content.entityMap
        ∧ st'.content.entityMap.lookup k = some rec
        ∧ ∃ blk', st'.content.blocks.get? st.selection.blockIdx = some blk'
            ∧ ∀ i, s0 ≤ i → i < e0 → entityAt blk'.chars i = none := by
  intro st blk k rec s0 e0 pr hblk hcol hs0 he0 helen hrange hlook hty
  have hblk2 : st.content.blocks[st.selection.blockIdx]? = some blk := by
    simpa using hblk
  have hplen : st.selection.startOff < blk.chars.length := lt_of_lt_of_le he0 helen
  have hpk : entityAt blk.chars st.selection.startOff = some k := hrange _ hs0 he0
  have hlk : isLinkKey st.content k = true := by
    simp [isLinkKey, hlook, hty]
  -- right coverage of the maximal span computation
  have hcovR : e0 - st.selection.startOff ≤ entityRunLen k (blk.chars.drop st.selection.startOff) := by
    apply takeWhile_length_ge
    intro j hj
    have h1 : (blk.chars.drop st.selection.startOff).get? j =
        blk.chars.get? (st.selection.startOff + j) := List.get?_drop _ _ _
    have h2 := hrange (st.selection.startOff + j) (by omega) (by omega)
    unfold entityAt at h2
    cases hgi : blk.chars.get? (st.selection.startOff + j) with
    | none =>
      rw [hgi] at h2
      simp at h2
    | some cj =>
      rw [hgi] at h2
      refine ⟨cj, by rw [h1, hgi], by simpa using h2⟩
  -- left coverage of the maximal span computation
  have hcovL : st.selection.startOff - s0 ≤
      entityRunLen k (blk.chars.take st.selection.startOff).reverse := by
    apply takeWhile_length_ge
    intro j hj
    have hlen_take : (blk.chars.take st.selection.startOff).length = st.selection.startOff := by
      rw [List.length_take]
      exact min_eq_left (le_of_lt hplen)
    have hjlen : j < (blk.chars.take st.selection.startOff).length := by omega
    have h1 : ((blk.chars.take st.selection.startOff).reverse).get? j =
        (blk.chars.take st.selection.startOff).get? (st.selection.startOff - 1 - j) := by
      rw [List.get?_reverse hjlen, hlen_take]
    have hidx : st.selection.startOff - 1 - j < st.selection.startOff := by omega
    have h2 : (blk.chars.take st.selection.startOff).get? (st.selection.startOff - 1 - j) =
        blk.chars.get? (st.selection.startOff - 1 - j) := List.get?_take hidx
    have h3 := hrange (st.selection.startOff - 1 - j) (by omega) (by omega)
    unfold entityAt at h3
    cases hgi : blk.chars.get? (st.selection.startOff - 1 - j) with
    | none =>
      rw [hgi] at h3
      simp at h3
    | some cj =>
      rw [hgi] at h3
      refine ⟨cj, by rw [h1, h2, hgi], by simpa using h3⟩
  -- the resolved link and its full span
  have hgl : getLink st = some
      { key := k
        selection :=
          { blockIdx := st.selection.blockIdx
            startOff := st.selection.startOff -
              entityRunLen k (blk.chars.take st.selection.startOff).reverse
            endOff := st.selection.startOff +
              entityRunLen k (blk.chars.drop st.selection.startOff)
            hasFocus := st.selection.hasFocus }
        href := hrefOfKey st.content.entityMap k } := by
    simp [getLink, hblk2, hcol, hpk, hlk]
  have heff : effectiveSelection st =
      { blockIdx := st.selection.blockIdx
        startOff := st.selection.startOff -
          entityRunLen k (blk.chars.take st.selection.startOff).reverse
        endOff := st.selection.startOff +
          entityRunLen k (blk.chars.drop st.selection.startOff)
        hasFocus := st.selection.hasFocus } := by
    simp [effectiveSelection, hgl, hcol]
  have hdel : handleLinkClick true st LinkAction.DELETE pr =
      some { st with content := applyEntity st.content (effectiveSelection st) none } := by
    simp [handleLinkClick]
  rw [heff] at hdel
  simp only [applyEntity, hblk] at hdel
  refine ⟨_, hdel, rfl, hlook, ?_⟩
  have hblt : st.selection.blockIdx < st.content.blocks.length := by
    rcases List.get?_eq_some.mp hblk with ⟨hl, _⟩
    exact hl
  refine ⟨_, get?_set_self _ _ _ hblt, ?_⟩
  intro i hi1 hi2
  have hilen : i < blk.chars.length := lt_of_lt_of_le hi2 helen
  have h4 := hrange i hi1 hi2
  unfold entityAt at h4
  cases hgi : blk.chars.get? i with
  | none =>
    rw [hgi] at h4
    simp at h4
  | some ci =>
    rw [hgi] at h4
    have hgi2 : blk.chars[i]? = some ci := by simpa using hgi
    have hcond : st.selection.startOff -
          entityRunLen k (blk.chars.take st.selection.startOff).reverse ≤ 0 + i
        ∧ 0 + i < st.selection.startOff +
          entityRunLen k (blk.chars.drop st.selection.startOff) := by
      constructor <;> omega
    unfold entityAt
    simp only [List.get?_eq_getElem?, mapIdxRange_getElem?, hgi2, Option.map_some']
    rw [if_pos hcond]

/-- C3 witness: deleting from a collapsed cursor at offset 1 inside the
two-character link of the demo document clears both characters and keeps the
entity record. -/
theorem c3_delete_clears_entire_link_span_witness :
    ∃ st', handleLinkClick true linkedEditorState LinkAction.DELETE PromptOutcome.cancelled = some st'
      ∧ st'.content.entityMap = linkedEditorState.content.entityMap
      ∧ st'.content.entityMap.lookup 0 = some linkRec
      ∧ ∃ blk', st'.content.blocks.get? linkedEditorState.selection.blockIdx = some blk'
          ∧ ∀ i, 0 ≤ i → i < 2 → entityAt blk'.chars i = none := by
  refine c3_delete_clears_entire_link_span linkedEditorState
    { key := "kb", blockType := "unstyled", chars := linkedChars } 0 linkRec 0 2
    PromptOutcome.cancelled (by decide) (by decide) (by decide) (by decide) (by decide)
    ?_ (by decide) (by decide)
  intro i h1 h2
  interval_cases i <;> decide

theorem lookup_isSome_append (em l : List (Nat × EntityRecord)) (k : Nat) :
    (em.lookup k).isSome = true → ((em ++ l).lookup k).isSome = true := by
  intro h
  induction em with
  | nil => simp [List.lookup] at h
  | cons p t ih =>
    obtain ⟨a, b⟩ := p
    cases hk : k == a with
    | true => simp [List.lookup, hk]
    | false =>
      simp only [List.lookup, hk] at h
      simp only [List.cons_append, List.lookup, hk]
      exact ih h

theorem lookup_append_self (em : List (Nat × EntityRecord)) (k : Nat) (r : EntityRecord) :
    ((em ++ [(k, r)]).lookup k).isSome = true := by
  induction em with
  | nil => simp [List.lookup]
  | cons p t ih =>
    obtain ⟨a, b⟩ := p
    cases hk : k == a with
    | true => simp [List.lookup, hk]
    | false =>
      simp only [List.cons_append, List.lookup, hk]
      exact ih

theorem entOkIn_append (em l : List (Nat × EntityRecord)) (o : Option Nat) :
    entOkIn em o → entOkIn (em ++ l) o := by
  intro h k hk
  exact lookup_isSome_append em l k (h k hk)

theorem mem_mapIdxRange (f : CharMeta → CharMeta) (s e : Nat) :
    ∀ (cs : List CharMeta) (i : Nat) (c : CharMeta), c ∈ mapIdxRange f s e i cs →
      c ∈ cs ∨ ∃ c0, c0 ∈ cs ∧ c = f c0 := by
  intro cs
  induction cs with
  | nil =>
    intro i c h
    simp [mapIdxRange] at h
  | cons a t ih =>
    intro i c h
    simp only [mapIdxRange, List.mem_cons] at h
    rcases h with h | h
    · by_cases hc : s ≤ i ∧ i < e
      · rw [if_pos hc] at h
        exact Or.inr ⟨a, List.mem_cons_self a t, h⟩
      · rw [if_neg hc] at h
        exact Or.inl (by simp [h])
    · rcases ih (i + 1) c h with h' | ⟨c0, hc0, hfc⟩
      · exact Or.inl (List.mem_cons_of_mem a h')
      · exact Or.inr ⟨c0, List.mem_cons_of_mem a hc0, hfc⟩

theorem entOk_addStyleRange (em : List (Nat × EntityRecord)) (sr : RawStyleRange)
    (cs : List CharMeta) :
    (∀ c ∈ cs, entOkIn em c.entity) → ∀ c ∈ addStyleRange sr cs, entOkIn em c.entity := by
  intro h c hc
  unfold addStyleRange at hc
  rcases mem_mapIdxRange _ _ _ cs 0 c hc with h' | ⟨c0, hc0, rfl⟩
  · exact h c h'
  · exact h c0 hc0

theorem entOk_addEntityRange (em : List (Nat × EntityRecord)) (er : RawEntityRange)
    (cs : List CharMeta) :
    (∀ c ∈ cs, entOkIn em c.entity) → ∀ c ∈ addEntityRange em er cs, entOkIn em c.entity := by
  intro h c hc
  unfold addEntityRange at hc
  by_cases hg : (em.lookup er.key).isSome = true
  · rw [if_pos hg] at hc
    rcases mem_mapIdxRange _ _ _ cs 0 c hc with h' | ⟨c0, hc0, rfl⟩
    · exact h c h'
    · intro k hk
      have hkk : er.key = k := Option.some.inj hk
      subst hkk
      exact hg
  · rw [if_neg hg] at hc
    exact h c hc

theorem entOk_foldStyle (em : List (Nat × EntityRecord)) :
    ∀ (srs : List RawStyleRange) (cs : List CharMeta),
      (∀ c ∈ cs, entOkIn em c.entity) →
      ∀ c ∈ srs.foldl (fun cs sr => addStyleRange sr cs) cs, entOkIn em c.entity := by
  intro srs
  induction srs with
  | nil =>
    intro cs h
    simpa using h
  | cons sr t ih =>
    intro cs h
    simp only [List.foldl_cons]
    exact ih _ (entOk_addStyleRange em sr cs h)

theorem entOk_foldEntity (em : List (Nat × EntityRecord)) :
    ∀ (ers : List RawEntityRange) (cs : List CharMeta),
      (∀ c ∈ cs, entOkIn em c.entity) →
      ∀ c ∈ ers.foldl (fun cs er => addEntityRange em er cs) cs, entOkIn em c.entity := by
  intro ers
  induction ers with
  | nil =>
    intro cs h
    simpa using h
  | cons er t ih =>
    intro cs h
    simp only [List.foldl_cons]
    exact ih _ (entOk_addEntityRange em er cs h)

theorem entOk_baseChars (em : List (Nat × EntityRecord)) (text : String) :
    ∀ c ∈ baseChars text, entOkIn em c.entity := by
  intro c hc
  unfold baseChars at hc
  rcases List.mem_map.mp hc with ⟨x, _, rfl⟩
  intro k hk
  simp at hk

theorem entOk_decodeBlock (em : List (Nat × EntityRecord)) (rb : RawBlock) :
    ∀ c ∈ (decodeBlock em rb).chars, entOkIn em c.entity := by
  intro c hc
  unfold decodeBlock at hc
  exact entOk_foldEntity em rb.entityRanges _
    (entOk_foldStyle em rb.styleRanges _ (entOk_baseChars em rb.text)) c hc

theorem validDoc_emptyContent : validDoc emptyContent := by
  constructor
  · simp [emptyContent]
  · intro b hb ch hch
    have hbe : b = emptyBlock := by simpa [emptyContent] using hb
    subst hbe
    simp [emptyBlock] at hch

theorem validDoc_convertFromRaw : ∀ v : Value, validDoc (convertFromRaw v) := by
  intro v
  match v with
  | .vNull => exact validDoc_emptyContent
  | .vUndefined => exact validDoc_emptyContent
  | .vStr _ => exact validDoc_emptyContent
  | .vContent _ => exact validDoc_emptyContent
  | .vRaw r =>
    constructor
    · by_cases hb : r.blocks.isEmpty = true
      · simp only [convertFromRaw, if_pos hb]
        simp
      · simp only [convertFromRaw, if_neg hb]
        intro hm
        have : r.blocks = [] := List.map_eq_nil.mp hm
        rw [this] at hb
        simp at hb
    · intro b hb1 ch hch
      simp only [convertFromRaw] at hb1 ⊢
      by_cases hb : r.blocks.isEmpty = true
      · rw [if_pos hb] at hb1
        have hbe : b = emptyBlock := by simpa using hb1
        subst hbe
        simp [emptyBlock] at hch
      · rw [if_neg hb] at hb1
        rcases List.mem_map.mp hb1 with ⟨rb, _, rfl⟩
        exact entOk_decodeBlock r.entityMap rb ch hch

theorem psInv_flushBlock (st : ParseSt) : psInv st → psInv (flushBlock st) := by
  intro h
  obtain ⟨h1, h2, h3⟩ := h
  unfold psInv flushBlock
  refine ⟨?_, ?_, h3⟩
  · intro b hb ch hch
    rcases List.mem_append.mp hb with hb | hb
    · exact h1 b hb ch hch
    · have hbe : b = { key := "", blockType := st.curType, chars := st.cur } := by simpa using hb
      subst hbe
      exact h2 ch hch
  · intro ch hch
    simp at hch

theorem psInv_hstep (st : ParseSt) (tok : HToken) : psInv st → psInv (hstep st tok) := by
  intro h
  obtain ⟨h1, h2, h3⟩ := h
  match tok with
  | .text c =>
    refine ⟨h1, ?_, h3⟩
    intro ch hch
    rcases List.mem_append.mp hch with hm | hm
    · exact h2 ch hm
    · have hce : ch = { ch := c, styles := st.styles, entity := st.entity } := by simpa using hm
      subst hce
      exact h3
  | .openTag name href =>
    cases hin : inlineStyleOf name with
    | some sty =>
      simp only [hstep, hin]
      exact ⟨h1, h2, h3⟩
    | none =>
      simp only [hstep, hin]
      by_cases ha : name = "a"
      · rw [if_pos ha]
        refine ⟨?_, ?_, ?_⟩
        · intro b hb ch hch
          exact entOkIn_append _ _ _ (h1 b hb ch hch)
        · intro ch hch
          exact entOkIn_append _ _ _ (h2 ch hch)
        · intro k hk
          have hkk : st.nextKey = k := Option.some.inj hk
          subst hkk
          exact lookup_append_self st.entities st.nextKey _
      · rw [if_neg ha]
        cases hbt : blockTypeOf name with
        | some bt =>
          simp only []
          have hst' : psInv (if st.cur.isEmpty then st else flushBlock st) := by
            by_cases hce : st.cur.isEmpty = true
            · rw [if_pos hce]
              exact ⟨h1, h2, h3⟩
            · rw [if_neg hce]
              exact psInv_flushBlock st ⟨h1, h2, h3⟩
          obtain ⟨g1, g2, g3⟩ := hst'
          exact ⟨g1, g2, g3⟩
        | none =>
          by_cases hbr : name = "br"
          · rw [if_pos hbr]
            exact psInv_flushBlock st ⟨h1, h2, h3⟩
          · rw [if_neg hbr]
            exact ⟨h1, h2, h3⟩
  | .closeTag name =>
    cases hin : inlineStyleOf name with
    | some sty =>
      simp only [hstep, hin]
      exact ⟨h1, h2, h3⟩
    | none =>
      simp only [hstep, hin]
      by_cases ha : name = "a"
      · rw [if_pos ha]
        refine ⟨h1, h2, ?_⟩
        intro k hk
        simp at hk
      · rw [if_neg ha]
        cases hbt : blockTypeOf name with
        | some bt => exact psInv_flushBlock st ⟨h1, h2, h3⟩
        | none => exact ⟨h1, h2, h3⟩

theorem psInv_foldl : ∀ (toks : List HToken) (st : ParseSt),
    psInv st → psInv (toks.foldl hstep st) := by
  intro toks
  induction toks with
  | nil =>
    intro st h
    simpa using h
  | cons tk t ih =>
    intro st h
    simp only [List.foldl_cons]
    exact ih _ (psInv_hstep st tk h)

theorem psInv_parseSt0 : psInv parseSt0 := by
  refine ⟨?_, ?_, ?_⟩
  · intro b hb ch hch
    simp [parseSt0] at hb
  · intro ch hch
    simp [parseSt0] at hch
  · intro k hk
    simp [parseSt0] at hk

theorem validDoc_ofParseSt (stF : ParseSt) (hinv : psInv stF) :
    validDoc
      { blocks :=
          if (stF.done ++ (if stF.cur.isEmpty then ([] : List Block)
              else [({ key := "", blockType := stF.curType, chars := stF.cur } : Block)])).isEmpty
          then [emptyBlock]
          else stF.done ++ (if stF.cur.isEmpty then ([] : List Block)
              else [({ key := "", blockType := stF.curType, chars := stF.cur } : Block)])
        entityMap := stF.entities } := by
  obtain ⟨h1, h2, h3⟩ := hinv
  constructor
  · by_cases hx : (stF.done ++ (if stF.cur.isEmpty then ([] : List Block)
        else [({ key := "", blockType := stF.curType, chars := stF.cur } : Block)])).isEmpty = true
    · rw [if_pos hx]
      simp
    · rw [if_neg hx]
      intro h0
      have h0' : stF.done ++ (if stF.cur.isEmpty then ([] : List Block)
          else [({ key := "", blockType := stF.curType, chars := stF.cur } : Block)]) = [] := h0
      rw [h0'] at hx
      simp at hx
  · intro b hb ch hch
    by_cases hx : (stF.done ++ (if stF.cur.isEmpty then ([] : List Block)
        else [({ key := "", blockType := stF.curType, chars := stF.cur } : Block)])).isEmpty = true
    · rw [if_pos hx] at hb
      have hbe : b = emptyBlock := by simpa using hb
      subst hbe
      simp [emptyBlock] at hch
    · rw [if_neg hx] at hb
      rcases List.mem_append.mp hb with hbm | hbm
      · exact h1 b hbm ch hch
      · by_cases hc : stF.cur.isEmpty = true
        · rw [if_pos hc] at hbm
          simp at hbm
        · rw [if_neg hc] at hbm
          have hbe : b = { key := "", blockType := stF.curType, chars := stF.cur } := by
            simpa using hbm
          subst hbe
          exact h2 ch hch

theorem validDoc_convertFromHTMLStr (s : String) : validDoc (convertFromHTMLStr s) := by
  unfold convertFromHTMLStr
  exact validDoc_ofParseSt _ (psInv_foldl _ _ psInv_parseSt0)

theorem validDoc_convertFromHTML : ∀ v : Value, validDoc (convertFromHTML v) := by
  intro v
  match v with
  | .vStr s => exact validDoc_convertFromHTMLStr s
  | .vNull => exact validDoc_emptyContent
  | .vUndefined => exact validDoc_emptyContent
  | .vRaw _ => exact validDoc_emptyContent
  | .vContent _ => exact validDoc_emptyContent

/-- C2: for every input value, the from-external converter never throws (it
is a total function built from total parsers), and for the `html` and `json`
formats — as for every falsy input — it returns a valid document: at least
one block, worst case the single empty paragraph, with every entity
reference resolvable; malformed pieces are dropped rather than raised. -/
theorem c2_convertContentFrom_valid :
    ∀ (v : Value) (t : String),
      truthy v = false ∨ t = "html" ∨ t = "json" →
      ∃ c, convertContentFrom v t = Value.vContent c ∧ validDoc c := by
  intro v t h
  by_cases hv : truthy v = false
  · exact ⟨emptyContent, by simp [convertContentFrom, hv], validDoc_emptyContent⟩
  · rcases h with h | h | h
    · exact absurd h hv
    · subst h
      exact ⟨convertFromHTML v, by simp [convertContentFrom, hv], validDoc_convertFromHTML v⟩
    · subst h
      exact ⟨convertFromRaw v, by simp [convertContentFrom, hv], validDoc_convertFromRaw v⟩

/-- C2 witness: malformed HTML input (an unterminated bold tag) under the
`html` type still yields a valid document. -/
theorem c2_convertContentFrom_valid_witness :
    ∃ c, convertContentFrom (Value.vStr "<b>oops") "html" = Value.vContent c ∧ validDoc c :=
  c2_convertContentFrom_valid (Value.vStr "<b>oops") "html" (Or.inr (Or.inl rfl))
